import Mathlib

/-!
Verification development for the Food-Suggester web application (`app.py`).

The file shallowly embeds the string-processing core of the application:

* `subBold` / `normalizeText` — the markdown-to-markup conversion
  `re.sub(r'\*\*(.*?)\*\*', r'<strong>\1</strong>', text)` in `ask_groq`;
* `stripTags`              — `re.sub(r'</?strong>', '', line)` in `suggest`;
* `splitNl`, `isBulletLine`, `cleanLine`, `extractDishes` — the
  bullet-line extraction pipeline of the `/suggest` route;
* `ask_groq`, `suggestDishes`, `get_image_for_query` — the request
  pipeline, with the external HTTP collaborators abstracted as outcome
  values and lookup functions;
* `search_ingredients`      — the `/search_ingredients` autocomplete route
  together with its hardcoded vocabulary.

Python's regex substitutions are modelled as fuel-indexed structural
recursions (`subBoldF`, `stripTagsF`) so that all definitions compute by
kernel reduction; the fuel is always the length of the input, which is
shown sufficient by the congruence lemmas below.
-/

/-- The ASCII whitespace characters stripped by Python's `str.strip()`. -/
def isPySpace (c : Char) : Bool :=
  c = ' ' || c = '\t' || c = '\n' || c = '\r' || c = '\x0b' || c = '\x0c'

/-- The bullet markers recognised by
`line.strip().startswith(('•', '-', '*'))` in `suggest`. -/
def bulletHead (c : Char) : Bool :=
  c = '•' || c = '-' || c = '*'

/-- The character set of Python's `.strip('•-* ')` in `suggest`. -/
def isBulletStrip (c : Char) : Bool :=
  c = '•' || c = '-' || c = '*' || c = ' '

/-- ASCII lowercasing, modelling Python's `str.lower()` on the ASCII
vocabulary used by the autocomplete route. -/
def pyLower (c : Char) : Char :=
  if 'A' ≤ c ∧ c ≤ 'Z' then Char.ofNat (c.toNat + 32) else c

/-- Lowercase every character of a list. -/
def lowerL (l : List Char) : List Char := l.map pyLower

/-- Python's `str.strip(chars)`: drop characters satisfying `p` from both
ends of the list. -/
def stripBoth (p : Char → Bool) (l : List Char) : List Char :=
  ((l.dropWhile p).reverse.dropWhile p).reverse

/-- Python's `text.split('\n')`: split at every newline, keeping empty
segments; the empty string yields one empty segment. -/
def splitNl : List Char → List (List Char)
  | [] => [[]]
  | c :: t =>
    if c = '\n' then [] :: splitNl t
    else
      match splitNl t with
      | h :: r => (c :: h) :: r
      | [] => [[c]]

/-- The characters of the replacement's opening tag `<strong>`. -/
def openTagL : List Char := "<strong>".data

/-- The characters of the replacement's closing tag `</strong>`. -/
def closeTagL : List Char := "</strong>".data

/-- If `pre` is a leading segment of `l`, return the remainder of `l`
after it. -/
def dropPre : List Char → List Char → Option (List Char)
  | [], l => some l
  | _ :: _, [] => none
  | p :: ps, c :: cs => if p = c then dropPre ps cs else none

/-- Fuel-indexed engine of `re.sub(r'</?strong>', '', line)`: scan left to
right, delete every occurrence of `</strong>` or `<strong>`, and copy
every other character. -/
def stripTagsF : Nat → List Char → List Char
  | 0, l => l
  | _ + 1, [] => []
  | f + 1, c :: t =>
    match dropPre closeTagL (c :: t) with
    | some r => stripTagsF f r
    | none =>
      match dropPre openTagL (c :: t) with
      | some r => stripTagsF f r
      | none => c :: stripTagsF f t

/-- `re.sub(r'</?strong>', '', line)` from `suggest`. -/
def stripTags (l : List Char) : List Char := stripTagsF l.length l

/-- Locate the closing `**` of a span, as the non-greedy group `(.*?)`
does: return the content up to the first `**` and the remainder after it,
failing if a newline (not matched by `.`) or the end of the input comes
first. -/
def findClose : List Char → Option (List Char × List Char)
  | [] => none
  | [_] => none
  | a :: b :: t =>
    if a = '\n' then none
    else if a = '*' ∧ b = '*' then some ([], t)
    else (findClose (b :: t)).map (fun p => (a :: p.1, p.2))

/-- Fuel-indexed engine of
`re.sub(r'\*\*(.*?)\*\*', r'<strong>\1</strong>', text)`: at each position
try to match an opening `**` followed by a non-greedy single-line content
and a closing `**`; on a match emit the wrapped content and continue after
the match, otherwise copy one character and continue. -/
def subBoldF : Nat → List Char → List Char
  | 0, l => l
  | _ + 1, [] => []
  | _ + 1, [a] => [a]
  | f + 1, a :: b :: t =>
    if a = '*' ∧ b = '*' then
      match findClose t with
      | some (c, r) => openTagL ++ c ++ closeTagL ++ subBoldF f r
      | none => a :: subBoldF f (b :: t)
    else a :: subBoldF f (b :: t)

/-- The markdown-to-markup substitution applied to every raw model
response in `ask_groq`. -/
def subBold (l : List Char) : List Char := subBoldF l.length l

/-- String-level text normalizer: `**text**` becomes
`<strong>text</strong>`. -/
def normalizeText (s : String) : String := ⟨subBold s.data⟩

/-- Cleaning of one kept line in `suggest`:
`re.sub(r'</?strong>', '', line).strip('•-* ').strip()`. -/
def cleanLine (l : List Char) : List Char :=
  stripBoth isPySpace (stripBoth isBulletStrip (stripTags l))

/-- The filter of `suggest`: `line.strip().startswith(('•', '-', '*'))`. -/
def isBulletLine (l : List Char) : Bool :=
  match stripBoth isPySpace l with
  | [] => false
  | c :: _ => bulletHead c

/-- The dish-list extraction of `suggest`: split into lines, keep the
bullet lines, clean each kept line.  The code has no step discarding
lines that clean to the empty string. -/
def extractDishes (l : List Char) : List (List Char) :=
  ((splitNl l).filter isBulletLine).map cleanLine

/-- String-level dish-list extraction. -/
def extractS (s : String) : List String :=
  (extractDishes s.data).map String.mk

/-- Outcome of the Groq chat-completion call made by `ask_groq`: the key
may be missing or the dummy value, the call may raise, the response may
lack choices, or a completion text is returned. -/
inductive GroqOutcome where
  | unconfigured
  | success (content : String)
  | noChoices
  | error (msg : String)

/-- `ask_groq`: every outcome is turned into a string — the configured
placeholder, the normalized completion, or an apologetic message — and no
exception escapes. -/
def ask_groq : GroqOutcome → String
  | .unconfigured =>
      "Sorry, Groq API key is not configured. Please set GROQ_API_KEY environment variable."
  | .success content => normalizeText content
  | .noChoices => "Sorry, I couldn\x27t cook anything with that input 😅"
  | .error msg =>
      "Something went wrong while talking to the recipe bot 💥: " ++ msg

/-- The `/suggest` route after reading the form: ask Groq, extract the
dish names, and pair every dish name with the result of the image lookup
collaborator `img`. -/
def suggestDishes (o : GroqOutcome) (img : String → Option String) :
    List (String × Option String) :=
  (extractS (ask_groq o)).map (fun d => (d, img d))

/-- The two size variants present in one Unsplash search result. -/
structure UnsplashUrls where
  small : String
  thumb : String
deriving DecidableEq

/-- Outcome of the Unsplash request made by `get_image_for_query`: missing
or dummy key, a raised `RequestException`, any other exception while
reading the response, or a parsed result list. -/
inductive ImgOutcome where
  | noKey
  | requestError (msg : String)
  | malformed (msg : String)
  | ok (results : List UnsplashUrls)

/-- `get_image_for_query`: every failure yields `none`; a non-empty result
list yields the small url for dishes and the thumb url for ingredients. -/
def get_image_for_query (o : ImgOutcome) (is_ingredient : Bool) :
    Option String :=
  match o with
  | .noKey => none
  | .requestError _ => none
  | .malformed _ => none
  | .ok [] => none
  | .ok (r :: _) => some (if is_ingredient then r.thumb else r.small)

/-- The hardcoded autocomplete vocabulary of `search_ingredients`,
verbatim, including the duplicated `"peas"`. -/
def all_possible_ingredients : List String :=
  ["chicken", "rice", "tomato", "onion", "garlic", "cheese", "milk", "eggs",
   "flour", "sugar", "salt", "pepper", "butter", "oil", "potato", "carrot",
   "spinach", "broccoli", "beef", "pork", "fish", "shrimp", "pasta", "bread",
   "lemon", "lime", "ginger", "chilli", "cumin", "coriander", "paprika",
   "cream", "yogurt", "mushrooms", "bell pepper", "cucumber", "avocado", "paneer", "peas",
   "apple", "banana", "orange", "grape", "strawberry", "blueberry", "mango", "pineapple",
   "lettuce", "cabbage", "zucchini", "eggplant", "peas", "beans", "lentils", "quinoa",
   "oats", "honey", "maple syrup", "chocolate", "cocoa powder", "vanilla extract",
   "almonds", "walnuts", "cashews", "peanuts", "olives", "olive oil", "vinegar",
   "mustard", "ketchup", "mayonnaise", "soy sauce", "teriyaki sauce", "sriracha",
   "basil", "oregano", "thyme", "rosemary", "parsley", "dill", "mint", "cinnamon",
   "nutmeg", "cloves", "cardamom", "turmeric", "bay leaf", "coconut milk", "tofu", "tempeh"]

/-- Leading-segment test on character lists. -/
def isPreL : List Char → List Char → Bool
  | [], _ => true
  | _ :: _, [] => false
  | a :: as, b :: bs => a = b && isPreL as bs

/-- Python's substring test `needle in haystack` on character lists. -/
def isSubL : List Char → List Char → Bool
  | [], _ => true
  | _ :: _, [] => false
  | n, c :: t => isPreL n (c :: t) || isSubL n t

/-- Python's `str.strip()` at the string level. -/
def pyStripWsS (s : String) : String := ⟨stripBoth isPySpace s.data⟩

/-- The local fallback image of `search_ingredients`. -/
def placeholder : String := "/static/placeholder_ingredient.png"

/-- `image_url if image_url else '/static/placeholder_ingredient.png'`:
Python truthiness makes both `None` and the empty string fall back. -/
def imageField (r : Option String) : String :=
  match r with
  | some u => if u = "" then placeholder else u
  | none => placeholder

/-- The vocabulary entries matched by `search_ingredients`: the stripped
query must be non-empty, and is matched case-insensitively as a substring
of each entry.  This list is also exactly the sequence of image lookups
the route performs. -/
def autocompleteMatches (query : String) : List String :=
  if pyStripWsS query = "" then []
  else all_possible_ingredients.filter
    (fun item => isSubL (lowerL (pyStripWsS query).data) (lowerL item.data))

/-- The `/search_ingredients` route: for every match, pair the entry with
its looked-up image or the placeholder. -/
def search_ingredients (query : String) (img : String → Option String) :
    List (String × String) :=
  (autocompleteMatches query).map (fun item => (item, imageField (img item)))

/-- Re-bullet a list of dish names: one per line, each prefixed with a
bullet marker, as in the spec's idempotence property. -/
def rebullet : List (List Char) → List Char
  | [] => []
  | [n] => '-' :: ' ' :: n
  | n :: ns => '-' :: ' ' :: n ++ '\n' :: rebullet ns

/-- Greedy left-to-right count of non-overlapping `**` occurrences, the
markers consumed by the substitution's scan. -/
def markerCount : List Char → Nat
  | [] => 0
  | [_] => 0
  | a :: b :: t =>
    if a = '*' ∧ b = '*' then markerCount t + 1 else markerCount (b :: t)

/-- Whether the list contains two adjacent stars, i.e. a raw `**`
marker. -/
def hasStars : List Char → Bool
  | [] => false
  | [_] => false
  | a :: b :: t => if a = '*' ∧ b = '*' then true else hasStars (b :: t)

/-- The worked example response of the specification. -/
def exampleResponse : String :=
  "**Fried Rice**\n- **Fried Rice**\n- Tomato Soup\n* Garlic Bread\nEnjoy your meal!"

/-! ### Strip lemmas -/

theorem mem_of_mem_dropWhile {p : Char → Bool} {x : Char} :
    ∀ {l : List Char}, x ∈ l.dropWhile p → x ∈ l := by
  intro l h
  induction l with
  | nil => simp at h
  | cons a t ih =>
    rw [List.dropWhile_cons] at h
    split at h
    · exact List.mem_cons_of_mem _ (ih h)
    · exact h

theorem dropWhile_idem (p : Char → Bool) (l : List Char) :
    List.dropWhile p (List.dropWhile p l) = List.dropWhile p l := by
  induction l with
  | nil => rfl
  | cons a t ih =>
    by_cases hp : p a
    · rw [List.dropWhile_cons, if_pos hp, ih]
    · rw [List.dropWhile_cons, if_neg hp, List.dropWhile_cons, if_neg hp]

theorem head?_dropWhile {p : Char → Bool} :
    ∀ {l : List Char} {c : Char}, (List.dropWhile p l).head? = some c → p c = false := by
  intro l
  induction l with
  | nil => intro c h; simp [List.dropWhile_nil] at h
  | cons a t ih =>
    intro c h
    by_cases hp : p a
    · rw [List.dropWhile_cons, if_pos hp] at h; exact ih h
    · rw [List.dropWhile_cons, if_neg hp] at h
      simp only [List.head?_cons, Option.some.injEq] at h
      subst h
      simpa using hp

theorem getLast?_dropWhile {p : Char → Bool} :
    ∀ {l : List Char}, List.dropWhile p l ≠ [] →
      (List.dropWhile p l).getLast? = l.getLast? := by
  intro l
  induction l with
  | nil => intro h; simp [List.dropWhile_nil] at h
  | cons a t ih =>
    intro h
    by_cases hp : p a
    · rw [List.dropWhile_cons, if_pos hp] at h ⊢
      rcases t with _ | ⟨b, t'⟩
      · simp [List.dropWhile_nil] at h
      · rw [List.getLast?_cons_cons]
        exact ih h
    · rw [List.dropWhile_cons, if_neg hp]

theorem dropWhile_of_head? {p : Char → Bool} {l : List Char} {c : Char}
    (hc : l.head? = some c) (hpc : p c = false) : List.dropWhile p l = l := by
  rcases l with _ | ⟨a, t⟩
  · rfl
  · simp only [List.head?_cons, Option.some.injEq] at hc
    subst hc
    rw [List.dropWhile_cons, if_neg (by simp [hpc])]

theorem dropWhile_append_last {p : Char → Bool} {a : Char} (h : p a = false) :
    ∀ x : List Char, List.dropWhile p (x ++ [a]) = List.dropWhile p x ++ [a] := by
  intro x
  induction x with
  | nil => simp [List.dropWhile_cons, h]
  | cons c x' ih =>
    by_cases hp : p c
    · rw [List.cons_append, List.dropWhile_cons, if_pos hp, ih,
        List.dropWhile_cons, if_pos hp]
    · rw [List.cons_append, List.dropWhile_cons, if_neg hp,
        List.dropWhile_cons, if_neg hp, List.cons_append]

theorem stripBoth_mem {p : Char → Bool} {x : Char} {l : List Char}
    (h : x ∈ stripBoth p l) : x ∈ l := by
  unfold stripBoth at h
  rw [List.mem_reverse] at h
  have h2 := mem_of_mem_dropWhile h
  rw [List.mem_reverse] at h2
  exact mem_of_mem_dropWhile h2

theorem stripBoth_idem (p : Char → Bool) (l : List Char) :
    stripBoth p (stripBoth p l) = stripBoth p l := by
  unfold stripBoth
  have h1 : List.dropWhile p ((List.dropWhile p ((List.dropWhile p l).reverse)).reverse)
      = (List.dropWhile p ((List.dropWhile p l).reverse)).reverse := by
    rcases hBr : (List.dropWhile p ((List.dropWhile p l).reverse)).reverse with _ | ⟨c, t⟩
    · simp
    · have hBne : List.dropWhile p ((List.dropWhile p l).reverse) ≠ [] := by
        intro h
        rw [h] at hBr
        simp at hBr
    
      have hhead : (List.dropWhile p ((List.dropWhile p l).reverse)).reverse.head?
          = (List.dropWhile p l).head? := by
        rw [List.head?_reverse, getLast?_dropWhile hBne, List.getLast?_reverse]
      rw [hBr] at hhead
      have hc : (List.dropWhile p l).head? = some c := by simpa using hhead.symm
      have hpc : p c = false := head?_dropWhile hc
      exact dropWhile_of_head? (by simp) hpc
  rw [h1, List.reverse_reverse, dropWhile_idem]

theorem stripBoth_nil_of_all {p : Char → Bool} {l : List Char}
    (h : ∀ c ∈ l, p c = true) : stripBoth p l = [] := by
  unfold stripBoth
  rw [List.dropWhile_eq_nil_iff.mpr h]
  simp

theorem stripBoth_cons_of_neg {p : Char → Bool} {a : Char} (h : p a = false)
    (t : List Char) :
    stripBoth p (a :: t) = a :: (t.reverse.dropWhile p).reverse := by
  unfold stripBoth
  rw [dropWhile_of_head? (l := a :: t) (by simp) h, List.reverse_cons,
    dropWhile_append_last h, List.reverse_append]
  simp

/-! ### splitNl lemmas -/

theorem splitNl_ne_nil : ∀ l : List Char, splitNl l ≠ [] := by
  intro l
  induction l with
  | nil => simp [splitNl]
  | cons c t ih =>
    by_cases hc : c = '\n'
    · simp [splitNl, hc]
    · rcases hst : splitNl t with _ | ⟨h0, r⟩
      · exact absurd hst ih
      · simp [splitNl, hc, hst]

theorem splitNl_no_newline : ∀ {l : List Char}, '\n' ∉ l → splitNl l = [l] := by
  intro l
  induction l with
  | nil => intro _; rfl
  | cons c t ih =>
    intro h
    have hc : c ≠ '\n' := by
      intro hc
      exact h (hc ▸ List.mem_cons_self c t)
    have ht : '\n' ∉ t := fun hm => h (List.mem_cons_of_mem _ hm)
    simp [splitNl, fun hcc => hc hcc, ih ht]

theorem splitNl_append : ∀ (x y : List Char),
    splitNl (x ++ '\n' :: y) = splitNl x ++ splitNl y := by
  intro x y
  induction x with
  | nil => simp [splitNl]
  | cons c t ih =>
    by_cases hc : c = '\n'
    · subst hc
      simp only [List.cons_append]
      rw [show splitNl ('\n' :: (t ++ '\n' :: y)) = [] :: splitNl (t ++ '\n' :: y) by
        simp [splitNl]]
      rw [ih]
      simp [splitNl]
    · rcases hst : splitNl t with _ | ⟨h0, r⟩
      · exact absurd hst (splitNl_ne_nil t)
      · simp only [List.cons_append]
        rw [show splitNl (c :: (t ++ '\n' :: y))
            = (c :: (splitNl (t ++ '\n' :: y)).headI) :: (splitNl (t ++ '\n' :: y)).tail by
          rcases hst2 : splitNl (t ++ '\n' :: y) with _ | ⟨h2, r2⟩
          · exact absurd hst2 (splitNl_ne_nil _)
          · simp [splitNl, hc, hst2]]
        rw [ih, hst]
        simp [splitNl, hc, hst]

theorem mem_splitNl_no_newline : ∀ {l p : List Char}, p ∈ splitNl l → '\n' ∉ p := by
  intro l
  induction l with
  | nil =>
    intro p hp
    simp only [splitNl, List.mem_singleton] at hp
    subst hp
    simp
  | cons c t ih =>
    intro p hp
    by_cases hc : c = '\n'
    · rw [show splitNl (c :: t) = [] :: splitNl t by simp [splitNl, hc]] at hp
      rcases List.mem_cons.mp hp with h | h
      · subst h; simp
      · exact ih h
    · rcases hst : splitNl t with _ | ⟨h0, r⟩
      · exact absurd hst (splitNl_ne_nil t)
      · rw [show splitNl (c :: t) = (c :: h0) :: r by simp [splitNl, hc, hst]] at hp
        rcases List.mem_cons.mp hp with h | h
        · subst h
          intro hmem
          rcases List.mem_cons.mp hmem with h | h
          · exact hc h.symm
          · exact ih (hst ▸ List.mem_cons_self h0 r) h
        · exact ih (hst ▸ List.mem_cons_of_mem _ h)

/-! ### stripTags lemmas -/

theorem dropPre_eq : ∀ {pre l r : List Char}, dropPre pre l = some r → l = pre ++ r := by
  intro pre
  induction pre with
  | nil =>
    intro l r h
    simp only [dropPre, Option.some.injEq] at h
    simp [h]
  | cons p ps ih =>
    intro l r h
    rcases l with _ | ⟨c, cs⟩
    · simp [dropPre] at h
    · by_cases hpc : p = c
      · rw [show dropPre (p :: ps) (c :: cs) = dropPre ps cs by simp [dropPre, hpc]] at h
        rw [List.cons_append, ← hpc, ih h]
      · rw [show dropPre (p :: ps) (c :: cs) = none by simp [dropPre, hpc]] at h
        exact absurd h (by simp)

theorem stripTagsF_mem : ∀ (f : Nat) {l : List Char} {x : Char},
    x ∈ stripTagsF f l → x ∈ l := by
  intro f
  induction f with
  | zero => intro l x h; exact h
  | succ f ih =>
    intro l x h
    rcases l with _ | ⟨c, t⟩
    · simp [stripTagsF] at h
    · simp only [stripTagsF] at h
      rcases hcl : dropPre closeTagL (c :: t) with _ | r
      · rw [hcl] at h
        rcases hop : dropPre openTagL (c :: t) with _ | r
        · rw [hop] at h
          simp only at h
          rcases List.mem_cons.mp h with h | h
          · exact h ▸ List.mem_cons_self c t
          · exact List.mem_cons_of_mem _ (ih h)
        · rw [hop] at h
          simp only at h
          rw [dropPre_eq hop]
          exact List.mem_append_right _ (ih h)
      · rw [hcl] at h
        simp only at h
        rw [dropPre_eq hcl]
        exact List.mem_append_right _ (ih h)

theorem stripTags_mem {l : List Char} {x : Char} (h : x ∈ stripTags l) : x ∈ l :=
  stripTagsF_mem l.length h

theorem cleanLine_mem {l : List Char} {x : Char} (h : x ∈ cleanLine l) : x ∈ l :=
  stripTags_mem (stripBoth_mem (stripBoth_mem h))

theorem extractDishes_no_newline {l n : List Char}
    (h : n ∈ extractDishes l) : '\n' ∉ n := by
  unfold extractDishes at h
  rcases List.mem_map.mp h with ⟨line, hline, rfl⟩
  have hmem : line ∈ splitNl l := (List.mem_filter.mp hline).1
  intro hn
  exact mem_splitNl_no_newline hmem (cleanLine_mem hn)

theorem extractDishes_append_nl (x y : List Char) :
    extractDishes (x ++ '\n' :: y) = extractDishes x ++ extractDishes y := by
  unfold extractDishes
  rw [splitNl_append, List.filter_append, List.map_append]

/-! ### hasStars lemmas -/

theorem hasStars_cons_cons (a b : Char) (t : List Char) :
    hasStars (a :: b :: t) = if a = '*' ∧ b = '*' then true else hasStars (b :: t) :=
  rfl

theorem hasStars_cons_false {a : Char} {t : List Char}
    (h : hasStars (a :: t) = false) : hasStars t = false := by
  rcases t with _ | ⟨b, t'⟩
  · rfl
  · rw [hasStars_cons_cons] at h
    by_cases hab : a = '*' ∧ b = '*'
    · rw [if_pos hab] at h; exact absurd h (by simp)
    · rwa [if_neg hab] at h

theorem hasStars_cons_of (a : Char) {t : List Char} (ht : hasStars t = false)
    (h : ¬(a = '*' ∧ t.head? = some '*')) : hasStars (a :: t) = false := by
  rcases t with _ | ⟨b, t'⟩
  · rfl
  · rw [hasStars_cons_cons, if_neg, ht]
    intro hab
    exact h ⟨hab.1, by simp [hab.2]⟩

theorem hasStars_append_star : ∀ {x : List Char}, hasStars (x ++ ['*']) = false →
    hasStars x = false ∧ x.getLast? ≠ some '*' := by
  intro x
  induction x with
  | nil => intro _; exact ⟨rfl, by simp⟩
  | cons a x' ih =>
    intro h
    rcases x' with _ | ⟨b, t⟩
    · simp only [List.cons_append, List.nil_append] at h
      rw [show ('*' : Char) :: [] = ['*'] from rfl, hasStars_cons_cons] at h
      by_cases ha : a = '*'
      · rw [if_pos ⟨ha, rfl⟩] at h; exact absurd h (by simp)
      · exact ⟨rfl, by simp [ha]⟩
    · simp only [List.cons_append] at h ⊢
      rw [hasStars_cons_cons] at h
      by_cases hab : a = '*' ∧ b = '*'
      · rw [if_pos hab] at h; exact absurd h (by simp)
      · rw [if_neg hab] at h
        obtain ⟨h1, h2⟩ := ih (by simpa using h)
        refine ⟨?_, ?_⟩
        · rw [hasStars_cons_cons, if_neg hab, h1]
        · rw [List.getLast?_cons_cons]; exact h2

theorem hasStars_append : ∀ {x : List Char}, hasStars x = false →
    ∀ {y : List Char}, hasStars y = false →
    (x.getLast? ≠ some '*' ∨ y.head? ≠ some '*') →
    hasStars (x ++ y) = false := by
  intro x
  induction x with
  | nil => intro _ y hy _; exact hy
  | cons a x' ih =>
    intro hx y hy hb
    rcases x' with _ | ⟨b, t⟩
    · rcases y with _ | ⟨c, ys⟩
      · exact hx
      · rw [List.singleton_append, hasStars_cons_cons, if_neg, hy]
        rintro ⟨ha, hc⟩
        rcases hb with hb | hb
        · exact hb (by simp [ha])
        · exact hb (by simp [hc])
    · rw [hasStars_cons_cons] at hx
      by_cases hab : a = '*' ∧ b = '*'
      · rw [if_pos hab] at hx; exact absurd hx (by simp)
      · rw [if_neg hab] at hx
        have hbt : ((b :: t).getLast? ≠ some '*' ∨ y.head? ≠ some '*') := by
          rcases hb with hb | hb
          · left; rwa [List.getLast?_cons_cons] at hb
          · right; exact hb
        have := ih hx hy hbt
        rw [List.cons_append, List.cons_append, hasStars_cons_cons, if_neg hab]
        rwa [List.cons_append] at this

/-! ### findClose lemmas -/

theorem findClose_eq : ∀ {t c r : List Char}, findClose t = some (c, r) →
    t = c ++ '*' :: '*' :: r ∧ hasStars (c ++ ['*']) = false := by
  intro t
  induction t with
  | nil => intro c r h; simp [findClose] at h
  | cons a t' ih =>
    intro c r h
    rcases t' with _ | ⟨b, t''⟩
    · simp [findClose] at h
    · by_cases ha : a = '\n'
      · rw [show findClose (a :: b :: t'') = none by simp [findClose, ha]] at h
        simp at h
      · by_cases hab : a = '*' ∧ b = '*'
        · rw [show findClose (a :: b :: t'') = some ([], t'') by
            simp [findClose, ha, hab]] at h
          simp only [Option.some.injEq, Prod.mk.injEq] at h
          obtain ⟨hc, hr⟩ := h
          subst hc; subst hr
          exact ⟨by simp [hab.1, hab.2], rfl⟩
        · rw [show findClose (a :: b :: t'')
              = (findClose (b :: t'')).map (fun p => (a :: p.1, p.2)) by
            simp [findClose, ha, hab]] at h
          rcases hfc : findClose (b :: t'') with _ | ⟨c', r'⟩
          · rw [hfc] at h; simp at h
          · rw [hfc] at h
            simp only [Option.map_some', Option.some.injEq, Prod.mk.injEq] at h
            obtain ⟨hc, hr⟩ := h
            obtain ⟨hdec, hcs⟩ := ih hfc
            subst hc; subst hr
            constructor
            · rw [List.cons_append, ← hdec]
            · rcases c' with _ | ⟨d, c''⟩
              · simp only [List.nil_append] at hdec
                have hb : b = '*' := (List.cons_eq_cons.mp hdec).1
                have ha' : a ≠ '*' := fun h' => hab ⟨h', hb⟩
                simp only [List.cons_append, List.nil_append]
                rw [show ('*' : Char) :: [] = ['*'] from rfl, hasStars_cons_cons,
                  if_neg (fun hp => ha' hp.1)]
                rfl
              · have hbd : b = d := by
                  rw [List.cons_append] at hdec
                  exact (List.cons_eq_cons.mp hdec).1
                have had : ¬(a = '*' ∧ d = '*') := fun hp => hab ⟨hp.1, hbd ▸ hp.2⟩
                rw [List.cons_append, List.cons_append, hasStars_cons_cons, if_neg had]
                rw [List.cons_append] at hcs
                exact hcs

theorem findClose_len {t c r : List Char} (h : findClose t = some (c, r)) :
    r.length + 2 ≤ t.length := by
  have hd := (findClose_eq h).1
  rw [hd]
  simp [List.length_append]

/-! ### subBold equations -/

theorem subBoldF_congr : ∀ (n₁ : Nat) {m : Nat} {l : List Char},
    l.length ≤ n₁ → l.length ≤ m → subBoldF n₁ l = subBoldF m l := by
  intro n₁
  induction n₁ with
  | zero =>
    intro m l h1 _
    have : l = [] := List.length_eq_zero.mp (Nat.le_zero.mp h1)
    subst this
    cases m <;> rfl
  | succ n ih =>
    intro m l h1 h2
    rcases l with _ | ⟨a, t⟩
    · cases m <;> rfl
    · rcases t with _ | ⟨b, t'⟩
      · rcases m with _ | m
        · simp at h2
        · rfl
      · rcases m with _ | m
        · simp at h2
        · simp only [List.length_cons] at h1 h2
          simp only [subBoldF]
          by_cases hab : a = '*' ∧ b = '*'
          · rcases hfc : findClose t' with _ | ⟨c, r⟩
            · simp only [if_pos hab, hfc]
              rw [ih (m := m) (l := b :: t')
                (by simp only [List.length_cons]; omega)
                (by simp only [List.length_cons]; omega)]
            · have hr := findClose_len hfc
              simp only [if_pos hab, hfc]
              rw [ih (m := m) (l := r) (by omega) (by omega)]
          · simp only [if_neg hab]
            rw [ih (m := m) (l := b :: t')
              (by simp only [List.length_cons]; omega)
              (by simp only [List.length_cons]; omega)]

theorem subBoldF_eq_subBold {n : Nat} {l : List Char} (h : l.length ≤ n) :
    subBoldF n l = subBold l :=
  subBoldF_congr n h (le_refl _)

theorem subBold_nil : subBold [] = [] := rfl

theorem subBold_single (a : Char) : subBold [a] = [a] := rfl

theorem subBold_not_opener {a b : Char} {t : List Char}
    (hab : ¬(a = '*' ∧ b = '*')) :
    subBold (a :: b :: t) = a :: subBold (b :: t) := by
  show subBoldF (t.length + 1 + 1) (a :: b :: t) = _
  simp only [subBoldF, if_neg hab]
  rw [subBoldF_eq_subBold (by simp)]

theorem subBold_opener_some {t c r : List Char} (hfc : findClose t = some (c, r)) :
    subBold ('*' :: '*' :: t) = openTagL ++ c ++ closeTagL ++ subBold r := by
  have hr := findClose_len hfc
  show subBoldF (t.length + 1 + 1) ('*' :: '*' :: t) = _
  simp only [subBoldF, if_pos (show ('*' : Char) = '*' ∧ ('*' : Char) = '*' from ⟨rfl, rfl⟩), hfc]
  rw [subBoldF_eq_subBold (by omega)]
  simp

theorem subBold_opener_none {t : List Char} (hfc : findClose t = none) :
    subBold ('*' :: '*' :: t) = '*' :: subBold ('*' :: t) := by
  show subBoldF (t.length + 1 + 1) ('*' :: '*' :: t) = _
  simp only [subBoldF, if_pos (show ('*' : Char) = '*' ∧ ('*' : Char) = '*' from ⟨rfl, rfl⟩), hfc]
  rw [subBoldF_eq_subBold (by simp)]
  simp

theorem subBold_head (l : List Char) :
    (subBold l).head? = l.head? ∨ (subBold l).head? = some '<' := by
  rcases l with _ | ⟨a, t⟩
  · left; rfl
  · rcases t with _ | ⟨b, t'⟩
    · left; rfl
    · by_cases hab : a = '*' ∧ b = '*'
      · obtain ⟨ha, hb⟩ := hab
        subst ha; subst hb
        rcases hfc : findClose t' with _ | ⟨c, r⟩
        · rw [subBold_opener_none hfc]; left; rfl
        · rw [subBold_opener_some hfc]; right; rfl
      · rw [subBold_not_opener hab]; left; rfl

/-! ### markerCount lemmas -/

theorem markerCount_cons_cons (a b : Char) (t : List Char) :
    markerCount (a :: b :: t)
      = if a = '*' ∧ b = '*' then markerCount t + 1 else markerCount (b :: t) :=
  rfl

theorem markerCount_zero_of_no_stars : ∀ {t : List Char},
    hasStars t = false → markerCount t = 0 := by
  intro t
  induction t with
  | nil => intro _; rfl
  | cons a t' ih =>
    intro h
    rcases t' with _ | ⟨b, t''⟩
    · rfl
    · rw [hasStars_cons_cons] at h
      rw [markerCount_cons_cons]
      by_cases hab : a = '*' ∧ b = '*'
      · rw [if_pos hab] at h; exact absurd h (by simp)
      · rw [if_neg hab] at h
        rw [if_neg hab]
        exact ih h

theorem findClose_none_no_stars : ∀ {t : List Char}, '\n' ∉ t →
    findClose t = none → hasStars t = false := by
  intro t
  induction t with
  | nil => intro _ _; rfl
  | cons a t' ih =>
    intro hn hfc
    rcases t' with _ | ⟨b, t''⟩
    · rfl
    · have ha : a ≠ '\n' := fun h => hn (h ▸ List.mem_cons_self _ _)
      by_cases hab : a = '*' ∧ b = '*'
      · rw [show findClose (a :: b :: t'') = some ([], t'') by
          simp [findClose, ha, hab]] at hfc
        simp at hfc
      · rw [show findClose (a :: b :: t'')
            = (findClose (b :: t'')).map (fun p => (a :: p.1, p.2)) by
          simp [findClose, ha, hab]] at hfc
        have hfc2 : findClose (b :: t'') = none := by
          rcases h2 : findClose (b :: t'') with _ | p
          · rfl
          · rw [h2] at hfc; simp at hfc
        rw [hasStars_cons_cons, if_neg hab]
        exact ih (fun hm => hn (List.mem_cons_of_mem _ hm)) hfc2

theorem markerCount_through : ∀ {c : List Char}, hasStars (c ++ ['*']) = false →
    ∀ r : List Char, markerCount (c ++ '*' :: '*' :: r) = markerCount r + 1 := by
  intro c
  induction c with
  | nil => intro _ r; rw [List.nil_append, markerCount_cons_cons, if_pos ⟨rfl, rfl⟩]
  | cons a c' ih =>
    intro h r
    rcases c' with _ | ⟨d, c''⟩
    · simp only [List.cons_append, List.nil_append] at h ⊢
      rw [show ('*' : Char) :: [] = ['*'] from rfl, hasStars_cons_cons] at h
      have ha : a ≠ '*' := by
        intro ha
        rw [if_pos ⟨ha, rfl⟩] at h
        simp at h
      rw [markerCount_cons_cons, if_neg (fun hp => ha hp.1),
        markerCount_cons_cons, if_pos ⟨rfl, rfl⟩]
    · simp only [List.cons_append] at h ⊢
      rw [hasStars_cons_cons] at h
      by_cases had : a = '*' ∧ d = '*'
      · rw [if_pos had] at h; simp at h
      · rw [if_neg had] at h
        rw [markerCount_cons_cons, if_neg had]
        have := ih (by simpa using h) r
        simpa using this

/-! ### The single-line no-stars theorem -/

theorem subBold_no_stars_single : ∀ (n : Nat) (l : List Char), l.length ≤ n →
    '\n' ∉ l → markerCount l % 2 = 0 → hasStars (subBold l) = false := by
  intro n
  induction n with
  | zero =>
    intro l h _ _
    have : l = [] := List.length_eq_zero.mp (Nat.le_zero.mp h)
    subst this
    rfl
  | succ n ih =>
    intro l hlen hn hmc
    rcases l with _ | ⟨a, t⟩
    · rfl
    · rcases t with _ | ⟨b, t'⟩
      · rw [subBold_single]; rfl
      · simp only [List.length_cons] at hlen
        by_cases hab : a = '*' ∧ b = '*'
        · obtain ⟨ha, hb⟩ := hab
          subst ha; subst hb
          rcases hfc : findClose t' with _ | ⟨c, r⟩
          · have hn' : '\n' ∉ t' := fun hm => hn (by simp [hm])
            have hst : hasStars t' = false := findClose_none_no_stars hn' hfc
            have hmc0 : markerCount t' = 0 := markerCount_zero_of_no_stars hst
            rw [markerCount_cons_cons, if_pos ⟨rfl, rfl⟩, hmc0] at hmc
            simp at hmc
          · obtain ⟨hdec, hcs⟩ := findClose_eq hfc
            have hr2 := findClose_len hfc
            rw [subBold_opener_some hfc]
            rw [markerCount_cons_cons, if_pos ⟨rfl, rfl⟩, hdec,
              markerCount_through hcs] at hmc
            have hmcr : markerCount r % 2 = 0 := by omega
            have hnr : '\n' ∉ r := by
              intro hm
              apply hn
              simp [hdec, hm]
            have hsr : hasStars (subBold r) = false := ih r (by omega) hnr hmcr
            obtain ⟨hsc, hlc⟩ := hasStars_append_star hcs
            have h1 : hasStars (closeTagL ++ subBold r) = false := by
              apply hasStars_append (x := closeTagL) (by decide) hsr
              left; decide
            have h2 : hasStars (c ++ (closeTagL ++ subBold r)) = false := by
              apply hasStars_append hsc h1
              right
              rw [show (closeTagL ++ subBold r).head? = some '<' from rfl]
              simp
            have h3 : hasStars (openTagL ++ (c ++ (closeTagL ++ subBold r))) = false := by
              apply hasStars_append (x := openTagL) (by decide) h2
              left; decide
            simpa [List.append_assoc] using h3
        · rw [subBold_not_opener hab]
          rw [markerCount_cons_cons, if_neg hab] at hmc
          have hn' : '\n' ∉ (b :: t') := fun hm => hn (List.mem_cons_of_mem _ hm)
          have hs := ih (b :: t') (by simp only [List.length_cons]; omega) hn' hmc
          apply hasStars_cons_of a hs
          rintro ⟨ha, hhd⟩
          rcases subBold_head (b :: t') with hh | hh
          · rw [hhd] at hh
            simp only [List.head?_cons] at hh
            have hb : b = '*' := by
              injection hh.symm
            exact hab ⟨ha, hb⟩
          · rw [hhd] at hh
            simp at hh

/-! ### Newline decomposition of the substitution -/

theorem findClose_append_nl : ∀ (u : List Char), '\n' ∉ u → ∀ v : List Char,
    findClose (u ++ '\n' :: v) = (findClose u).map (fun p => (p.1, p.2 ++ '\n' :: v)) := by
  intro u
  induction u with
  | nil =>
    intro _ v
    rcases v with _ | ⟨c, t⟩
    · rfl
    · rw [show findClose ([] ++ '\n' :: c :: t) = none by simp [findClose]]
      rfl
  | cons a u' ih =>
    intro hn v
    have ha : a ≠ '\n' := fun h => hn (h ▸ List.mem_cons_self _ _)
    have hn' : '\n' ∉ u' := fun h => hn (List.mem_cons_of_mem _ h)
    rcases u' with _ | ⟨b, t⟩
    · rw [List.singleton_append]
      rw [show findClose (a :: '\n' :: v)
          = (findClose ('\n' :: v)).map (fun p => (a :: p.1, p.2)) by
        simp [findClose, ha]]
      rw [show findClose ('\n' :: v) = none from by
        rcases v with _ | ⟨c, t⟩
        · rfl
        · simp [findClose]]
      rfl
    · simp only [List.cons_append]
      by_cases hab : a = '*' ∧ b = '*'
      · rw [show findClose (a :: b :: (t ++ '\n' :: v)) = some ([], t ++ '\n' :: v) by
            simp [findClose, ha, hab],
          show findClose (a :: b :: t) = some ([], t) by simp [findClose, ha, hab]]
        rfl
      · rw [show findClose (a :: b :: (t ++ '\n' :: v))
            = (findClose (b :: (t ++ '\n' :: v))).map (fun p => (a :: p.1, p.2)) by
          simp [findClose, ha, hab]]
        rw [show (b :: (t ++ '\n' :: v)) = (b :: t) ++ '\n' :: v from rfl]
        rw [ih hn' v]
        rw [show findClose (a :: b :: t)
            = (findClose (b :: t)).map (fun p => (a :: p.1, p.2)) by
          simp [findClose, ha, hab]]
        rcases findClose (b :: t) with _ | ⟨c, r⟩
        · rfl
        · rfl

theorem subBold_newline_cons (y : List Char) :
    subBold ('\n' :: y) = '\n' :: subBold y := by
  rcases y with _ | ⟨c, t⟩
  · rfl
  · rw [subBold_not_opener (by simp)]

theorem subBold_append_nl : ∀ (n : Nat) (x : List Char), x.length ≤ n → '\n' ∉ x →
    ∀ y : List Char, subBold (x ++ '\n' :: y) = subBold x ++ '\n' :: subBold y := by
  intro n
  induction n with
  | zero =>
    intro x h _ y
    have : x = [] := List.length_eq_zero.mp (Nat.le_zero.mp h)
    subst this
    rw [List.nil_append, subBold_nil, List.nil_append, subBold_newline_cons]
  | succ n ih =>
    intro x hlen hn y
    rcases x with _ | ⟨a, x'⟩
    · rw [List.nil_append, subBold_nil, List.nil_append, subBold_newline_cons]
    · have ha : a ≠ '\n' := fun h => hn (h ▸ List.mem_cons_self _ _)
      have hn' : '\n' ∉ x' := fun h => hn (List.mem_cons_of_mem _ h)
      rcases x' with _ | ⟨b, t⟩
      · rw [List.singleton_append,
          subBold_not_opener (by rintro ⟨_, h2⟩; exact absurd h2 (by simp)),
          subBold_newline_cons, subBold_single]
        rfl
      · simp only [List.cons_append] at hlen ⊢
        have hnt : '\n' ∉ t := fun h => hn' (List.mem_cons_of_mem _ h)
        simp only [List.length_cons] at hlen
        by_cases hab : a = '*' ∧ b = '*'
        · obtain ⟨h1, h2⟩ := hab
          subst h1; subst h2
          rcases hfc : findClose t with _ | ⟨c, r⟩
          · have hfc2 : findClose (t ++ '\n' :: y) = none := by
              rw [findClose_append_nl t hnt y, hfc]; rfl
            rw [subBold_opener_none hfc2, subBold_opener_none hfc]
            have hih := ih ('*' :: t) (by simp only [List.length_cons]; omega)
              (by
                intro hm
                rcases List.mem_cons.mp hm with h | h
                · exact absurd h.symm (by simp)
                · exact hnt h) y
            simp only [List.cons_append] at hih
            rw [hih]
            rfl
          · have hfc2 : findClose (t ++ '\n' :: y) = some (c, r ++ '\n' :: y) := by
              rw [findClose_append_nl t hnt y, hfc]; rfl
            rw [subBold_opener_some hfc2, subBold_opener_some hfc]
            have hr := findClose_len hfc
            have hnr : '\n' ∉ r := by
              obtain ⟨hdec, _⟩ := findClose_eq hfc
              intro hm
              exact hnt (by simp [hdec, hm])
            rw [ih r (by omega) hnr y]
            simp [List.append_assoc]
        · rw [subBold_not_opener hab, subBold_not_opener hab]
          have hih := ih (b :: t) (by simp only [List.length_cons]; omega) hn' y
          simp only [List.cons_append] at hih
          rw [hih]
          rfl

theorem first_newline_split : ∀ {l : List Char}, '\n' ∈ l →
    ∃ x y, l = x ++ '\n' :: y ∧ '\n' ∉ x := by
  intro l h
  induction l with
  | nil => simp at h
  | cons c t ih =>
    by_cases hc : c = '\n'
    · exact ⟨[], t, by rw [hc]; rfl, by simp⟩
    · have hm : '\n' ∈ t := by
        rcases List.mem_cons.mp h with h | h
        · exact absurd h.symm hc
        · exact h
      rcases ih hm with ⟨x, y, hdec, hnx⟩
      refine ⟨c :: x, y, by rw [List.cons_append, ← hdec], ?_⟩
      intro hm2
      rcases List.mem_cons.mp hm2 with h | h
      · exact hc h.symm
      · exact hnx h

/-! ### The multi-line no-stars theorem -/

theorem subBold_no_stars : ∀ (n : Nat) (l : List Char), l.length ≤ n →
    (∀ p ∈ splitNl l, markerCount p % 2 = 0) → hasStars (subBold l) = false := by
  intro n
  induction n with
  | zero =>
    intro l h _
    have : l = [] := List.length_eq_zero.mp (Nat.le_zero.mp h)
    subst this
    rfl
  | succ n ih =>
    intro l hlen hev
    by_cases hnl : '\n' ∈ l
    · obtain ⟨x, y, rfl, hnx⟩ := first_newline_split hnl
      rw [subBold_append_nl x.length x (le_refl _) hnx y]
      have hx : markerCount x % 2 = 0 := by
        apply hev x
        rw [splitNl_append]
        exact List.mem_append_left _ (by rw [splitNl_no_newline hnx]; simp)
      have hsy : hasStars (subBold y) = false := by
        apply ih y (by simp only [List.length_append, List.length_cons] at hlen; omega)
        intro p hp
        exact hev p (by rw [splitNl_append]; exact List.mem_append_right _ hp)
      have hsx := subBold_no_stars_single x.length x (le_refl _) hnx hx
      apply hasStars_append hsx
      · apply hasStars_cons_of '\n' hsy
        rintro ⟨h1, _⟩
        exact absurd h1 (by simp)
      · right; simp
    · exact subBold_no_stars_single l.length l (le_refl _) hnl
        (hev l (by rw [splitNl_no_newline hnl]; simp))

/-! ### Span conversion and identity lemmas for the normalizer -/

theorem findClose_of_clean : ∀ {c : List Char}, hasStars (c ++ ['*']) = false →
    '\n' ∉ c → ∀ rest : List Char,
    findClose (c ++ '*' :: '*' :: rest) = some (c, rest) := by
  intro c
  induction c with
  | nil => intro _ _ rest; simp [findClose]
  | cons a c' ih =>
    intro h hn rest
    have ha : a ≠ '\n' := fun hh => hn (hh ▸ List.mem_cons_self _ _)
    have hn' : '\n' ∉ c' := fun hh => hn (List.mem_cons_of_mem _ hh)
    rcases c' with _ | ⟨d, c''⟩
    · simp only [List.cons_append, List.nil_append] at h ⊢
      rw [show ('*' : Char) :: [] = ['*'] from rfl, hasStars_cons_cons] at h
      have has : a ≠ '*' := by
        intro ha'
        rw [if_pos ⟨ha', rfl⟩] at h
        simp at h
      rw [show findClose (a :: '*' :: '*' :: rest)
          = (findClose ('*' :: '*' :: rest)).map (fun p => (a :: p.1, p.2)) by
        simp [findClose, ha, has]]
      rw [show findClose ('*' :: '*' :: rest) = some ([], rest) by simp [findClose]]
      rfl
    · simp only [List.cons_append] at h ⊢
      rw [hasStars_cons_cons] at h
      by_cases had : a = '*' ∧ d = '*'
      · rw [if_pos had] at h; simp at h
      · rw [if_neg had] at h
        rw [show findClose (a :: d :: (c'' ++ '*' :: '*' :: rest))
            = (findClose (d :: (c'' ++ '*' :: '*' :: rest))).map (fun p => (a :: p.1, p.2)) by
          simp [findClose, ha, had]]
        have hih := ih (by simpa using h) hn' rest
        simp only [List.cons_append] at hih
        rw [hih]
        rfl

theorem subBold_span {c : List Char} (hc : hasStars (c ++ ['*']) = false)
    (hn : '\n' ∉ c) (rest : List Char) :
    subBold ('*' :: '*' :: (c ++ '*' :: '*' :: rest))
      = openTagL ++ c ++ closeTagL ++ subBold rest :=
  subBold_opener_some (findClose_of_clean hc hn rest)

theorem subBold_no_stars_id : ∀ (n : Nat) (l : List Char), l.length ≤ n →
    hasStars l = false → subBold l = l := by
  intro n
  induction n with
  | zero =>
    intro l h _
    have : l = [] := List.length_eq_zero.mp (Nat.le_zero.mp h)
    subst this
    rfl
  | succ n ih =>
    intro l hlen h
    rcases l with _ | ⟨a, t⟩
    · rfl
    · rcases t with _ | ⟨b, t'⟩
      · exact subBold_single a
      · rw [hasStars_cons_cons] at h
        by_cases hab : a = '*' ∧ b = '*'
        · rw [if_pos hab] at h; simp at h
        · rw [if_neg hab] at h
          rw [subBold_not_opener hab,
            ih (b :: t') (by simp only [List.length_cons] at hlen ⊢; omega) h]

/-! ### String append data -/

theorem string_data_append (a b : String) : (a ++ b).data = a.data ++ b.data := rfl

/-! ### Rebullet lemmas -/

theorem isBulletLine_rebullet (n : List Char) :
    isBulletLine ('-' :: ' ' :: n) = true := by
  unfold isBulletLine
  rw [stripBoth_cons_of_neg (by decide)]
  rfl

theorem extractDishes_rebullet_single {n : List Char} (hn : '\n' ∉ n)
    (hc : cleanLine ('-' :: ' ' :: n) = n) :
    extractDishes ('-' :: ' ' :: n) = [n] := by
  unfold extractDishes
  rw [splitNl_no_newline (by
    intro hm
    rcases List.mem_cons.mp hm with h | h
    · simp at h
    · rcases List.mem_cons.mp h with h | h
      · simp at h
      · exact hn h)]
  simp [List.filter_cons, isBulletLine_rebullet, hc]

theorem extractDishes_rebullet : ∀ (names : List (List Char)),
    (∀ n ∈ names, '\n' ∉ n) → (∀ n ∈ names, cleanLine ('-' :: ' ' :: n) = n) →
    extractDishes (rebullet names) = names := by
  intro names
  induction names with
  | nil => intro _ _; rfl
  | cons n ns ih =>
    intro h1 h2
    rcases ns with _ | ⟨m, ns'⟩
    · rw [show rebullet [n] = '-' :: ' ' :: n from rfl]
      exact extractDishes_rebullet_single (h1 n (by simp)) (h2 n (by simp))
    · rw [show rebullet (n :: m :: ns') = ('-' :: ' ' :: n) ++ '\n' :: rebullet (m :: ns')
        from rfl]
      rw [extractDishes_append_nl,
        extractDishes_rebullet_single (h1 n (by simp)) (h2 n (by simp)),
        ih (fun x hx => h1 x (List.mem_cons_of_mem _ hx))
          (fun x hx => h2 x (List.mem_cons_of_mem _ hx))]
      rfl

/-! ### Trimmed-output lemma -/

theorem extractS_trimmed (s : String) (d : String) (h : d ∈ extractS s) :
    pyStripWsS d = d := by
  unfold extractS at h
  rcases List.mem_map.mp h with ⟨n, hn, rfl⟩
  unfold extractDishes at hn
  rcases List.mem_map.mp hn with ⟨line, _, rfl⟩
  show (⟨stripBoth isPySpace (cleanLine line)⟩ : String) = ⟨cleanLine line⟩
  congr 1
  show stripBoth isPySpace (stripBoth isPySpace (stripBoth isBulletStrip (stripTags line)))
    = cleanLine line
  exact stripBoth_idem _ _

/-! ### Autocomplete lemmas -/

theorem pyStripWsS_idem (q : String) : pyStripWsS (pyStripWsS q) = pyStripWsS q := by
  unfold pyStripWsS
  congr 1
  exact stripBoth_idem _ _

theorem pyStripWsS_all_ws {q : String} (h : ∀ c ∈ q.data, isPySpace c = true) :
    pyStripWsS q = "" := by
  unfold pyStripWsS
  rw [stripBoth_nil_of_all h]

theorem imageField_ne_empty (r : Option String) : imageField r ≠ "" := by
  rcases r with _ | u
  · show placeholder ≠ ""
    decide
  · show (if u = "" then placeholder else u) ≠ ""
    by_cases hu : u = ""
    · rw [if_pos hu]; decide
    · rw [if_neg hu]; exact hu

theorem autocompleteMatches_nil {q : String} (h : pyStripWsS q = "") :
    autocompleteMatches q = [] := by
  unfold autocompleteMatches
  rw [if_pos h]

theorem autocompleteMatches_strip (q : String) :
    autocompleteMatches q = autocompleteMatches (pyStripWsS q) := by
  unfold autocompleteMatches
  rw [pyStripWsS_idem]

/-! ### Claim theorems -/

/-- Claim C1, counterexample: the extractor does not discard lines that
become empty after stripping — on the input `"- "` the single bullet line
cleans to the empty string and that empty string is an element of the
output, contradicting the claim that no element of the extractor's output
is the empty string. -/
theorem C1_counterexample :
    "" ∈ extractS "- " ∧ extractS "- " = [""] := by decide

/-- Claim C1 (amended): the extractor keeps exactly the lines whose
whitespace-trimmed leading character is a bullet marker and cleans each
kept line (strip emphasis tags, then bullet characters and whitespace at
both ends), but it does not discard lines that become empty: the output
has one entry per kept line, always.  On the spec's example input,
normalization followed by extraction yields exactly
`["Fried Rice", "Tomato Soup", "Garlic Bread"]`, while the input `"- "`
yields `[""]`. -/
theorem C1_amended_extractor :
    (∀ s : String, (extractS s).length = ((splitNl s.data).filter isBulletLine).length) ∧
    extractS (normalizeText exampleResponse)
      = ["Fried Rice", "Tomato Soup", "Garlic Bread"] ∧
    extractS "- " = [""] := by
  refine ⟨?_, by decide, by decide⟩
  intro s
  unfold extractS extractDishes
  simp

/-- Claim C2, counterexample: content spanning a newline is not converted —
the non-greedy group `(.*?)` cannot match `'\n'`, so `"**a\nb**"` is left
untouched instead of being wrapped in strong-emphasis markup. -/
theorem C2_counterexample :
    normalizeText "**a\nb**" = "**a\nb**" ∧
    normalizeText "**a\nb**" ≠ "<strong>a\nb</strong>" := by decide

/-- Claim C2 (amended): the normalizer replaces every left-to-right,
non-greedy `**content**` span where the content contains neither a `**`
marker (including one formed with its own trailing star) nor a newline;
spans never cross a newline; text without raw `**` markers — in
particular any lone unmatched marker context — is left untouched; and
empty input yields empty output. -/
theorem C2_amended_normalizer :
    subBold [] = [] ∧
    (∀ c rest : List Char, hasStars (c ++ ['*']) = false → '\n' ∉ c →
      subBold ('*' :: '*' :: (c ++ '*' :: '*' :: rest))
        = openTagL ++ c ++ closeTagL ++ subBold rest) ∧
    (∀ l : List Char, hasStars l = false → subBold l = l) ∧
    normalizeText "ab ** cd" = "ab ** cd" := by
  refine ⟨rfl, ?_, ?_, by decide⟩
  · intro c rest hc hn
    exact subBold_span hc hn rest
  · intro l h
    exact subBold_no_stars_id l.length l (le_refl _) h

/-- Witness for C2: the span equation at concrete content `"abc"` with
remainder `" tail"`, and untouched text at `"no markers"`. -/
theorem C2_witness :
    subBold ('*' :: '*' :: ("abc".data ++ '*' :: '*' :: " tail".data))
      = openTagL ++ "abc".data ++ closeTagL ++ subBold " tail".data ∧
    subBold "no markers".data = "no markers".data :=
  ⟨C2_amended_normalizer.2.1 "abc".data " tail".data (by decide) (by decide),
   C2_amended_normalizer.2.2.1 "no markers".data (by decide)⟩

/-- Claim C3, counterexample: on the input `"**"` — a lone unbalanced
marker — the normalizer's output still contains a raw `**` marker,
contradicting the claim for all strings including unbalanced ones. -/
theorem C3_counterexample :
    hasStars (normalizeText "**").data = true ∧ normalizeText "**" = "**" := by decide

/-- Claim C3 (amended): for every raw model response in which every line
contains an even number of left-to-right non-overlapping `**` occurrences,
the normalizer's output contains no raw `**` marker. -/
theorem C3_amended_no_raw_markers (s : String)
    (h : ∀ p ∈ splitNl s.data, markerCount p % 2 = 0) :
    hasStars (normalizeText s).data = false :=
  subBold_no_stars s.data.length s.data (le_refl _) h

/-- Witness for C3 at a concrete two-line balanced response. -/
theorem C3_witness :
    hasStars (normalizeText "**Fried Rice**\n- **Fried Rice**").data = false :=
  C3_amended_no_raw_markers "**Fried Rice**\n- **Fried Rice**" (by decide)

/-- Claim C4, counterexample: `.strip('•-* ')` only strips the ends and a
tab shields further characters, so the dish name extracted from
`"- \t- <str<strong>ong>a-b"` is `"- <strong>a-b"`: it contains bullet
markers (even a leading one) and emphasis markup. -/
theorem C4_counterexample :
    extractS "- \t- <str<strong>ong>a-b" = ["- <strong>a-b"] ∧
    ("- <strong>a-b").data.head? = some '-' := by decide

/-- Claim C4 (amended): every DishName produced by the extractor has no
leading or trailing whitespace (the final `.strip()` of the code);
interior bullet markers or tag text may remain. -/
theorem C4_amended_trimmed (s d : String) (h : d ∈ extractS s) :
    pyStripWsS d = d :=
  extractS_trimmed s d h

/-- Witness for C4 at a concrete extraction. -/
theorem C4_witness : pyStripWsS "Rice" = "Rice" :=
  C4_amended_trimmed "- Rice" "Rice" (by decide)

/-- Claim C5: when the LLM is unconfigured, `ask_groq` substitutes the
fixed non-empty placeholder message, `suggestDishes` still returns a
well-formed (here empty) sequence for every image-lookup collaborator,
and no exception propagates (every outcome is mapped to a string and a
list by total functions). -/
theorem C5_llm_failure_graceful :
    (∀ img : String → Option String, suggestDishes GroqOutcome.unconfigured img = []) ∧
    ask_groq GroqOutcome.unconfigured
      = "Sorry, Groq API key is not configured. Please set GROQ_API_KEY environment variable." ∧
    (ask_groq GroqOutcome.unconfigured).length ≠ 0 := by
  refine ⟨?_, rfl, by decide⟩
  intro img
  have h : extractS (ask_groq GroqOutcome.unconfigured) = [] := by decide
  unfold suggestDishes
  rw [h]
  rfl

/-- Claim C6: missing key, transport error, malformed response and empty
result list all yield an absent image URL; the suggestion pipeline keeps
every dish name whatever the lookup function returns, and each suggestion
carries exactly its own lookup result, so a missing image never aborts or
fails the pipeline. -/
theorem C6_image_failure_uniform :
    (∀ (b : Bool) (m : String),
      get_image_for_query ImgOutcome.noKey b = none ∧
      get_image_for_query (ImgOutcome.requestError m) b = none ∧
      get_image_for_query (ImgOutcome.malformed m) b = none ∧
      get_image_for_query (ImgOutcome.ok []) b = none) ∧
    (∀ (o : GroqOutcome) (img : String → Option String),
      (suggestDishes o img).map Prod.fst = extractS (ask_groq o)) ∧
    (∀ (o : GroqOutcome) (img : String → Option String) (p : String × Option String),
      p ∈ suggestDishes o img → p.2 = img p.1) := by
  refine ⟨fun b m => ⟨rfl, rfl, rfl, rfl⟩, ?_, ?_⟩
  · intro o img
    unfold suggestDishes
    rw [List.map_map, show (Prod.fst ∘ fun d => (d, img d)) = id from funext fun _ => rfl,
      List.map_id]
  · intro o img p hp
    unfold suggestDishes at hp
    rcases List.mem_map.mp hp with ⟨d, _, rfl⟩
    rfl

/-- Witness for C6: a concrete suggestion of a failed lookup keeps its
dish name with an absent image. -/
theorem C6_witness :
    (("Rice", (none : Option String)) : String × Option String).2
      = (fun _ => (none : Option String)) ("Rice", (none : Option String)).1 :=
  C6_image_failure_uniform.2.2 (GroqOutcome.success "- Rice") (fun _ => none)
    ("Rice", none) (by decide)

/-- Claim C7, counterexample: the route matches against the trimmed query,
not the raw one — the query `" "` case-folds to a substring of the
vocabulary entry `"bell pepper"`, yet the route returns the empty list
because the trimmed query is empty. -/
theorem C7_counterexample :
    search_ingredients " " (fun _ => none) = [] ∧
    isSubL (lowerL " ".data) (lowerL "bell pepper".data) = true ∧
    "bell pepper" ∈ all_possible_ingredients := by decide

/-- Claim C7 (amended): with the query first whitespace-trimmed, the
autocomplete returns the ordered subsequence of the static vocabulary
whose entries contain the case-folded trimmed query as a substring; a
query trimming to empty yields the empty sequence (never the whole
vocabulary); and every returned image field is a non-empty string, the
fixed placeholder whenever the lookup fails. -/
theorem C7_amended_autocomplete :
    (∀ (q : String) (f : String → Option String),
      pyStripWsS q = "" → search_ingredients q f = []) ∧
    (∀ (q : String) (f : String → Option String), pyStripWsS q ≠ "" →
      (search_ingredients q f).map Prod.fst
        = all_possible_ingredients.filter
            (fun item => isSubL (lowerL (pyStripWsS q).data) (lowerL item.data))) ∧
    (∀ (q : String) (f : String → Option String) (p : String × String),
      p ∈ search_ingredients q f →
        p.1 ∈ all_possible_ingredients ∧ p.2 ≠ "" ∧
        (f p.1 = none → p.2 = placeholder)) := by
  refine ⟨?_, ?_, ?_⟩
  · intro q f h
    unfold search_ingredients
    rw [autocompleteMatches_nil h]
    rfl
  · intro q f h
    unfold search_ingredients autocompleteMatches
    rw [if_neg h]
    rw [List.map_map,
      show (Prod.fst ∘ fun item => (item, imageField (f item))) = id from funext fun _ => rfl,
      List.map_id]
  · intro q f p hp
    unfold search_ingredients at hp
    rcases List.mem_map.mp hp with ⟨item, hitem, rfl⟩
    have hvocab : item ∈ all_possible_ingredients := by
      unfold autocompleteMatches at hitem
      by_cases h : pyStripWsS q = ""
      · rw [if_pos h] at hitem; simp at hitem
      · rw [if_neg h] at hitem
        exact (List.mem_filter.mp hitem).1
    refine ⟨hvocab, imageField_ne_empty _, ?_⟩
    intro hf
    show imageField (f item) = placeholder
    rw [hf]
    rfl

/-- Witness for C7: the empty query short-circuits, and the query
`"CHI"` matches case-insensitively. -/
theorem C7_witness :
    search_ingredients "" (fun _ => none) = [] ∧
    (search_ingredients "CHI" (fun _ => none)).map Prod.fst
      = all_possible_ingredients.filter
          (fun item => isSubL (lowerL (pyStripWsS "CHI").data) (lowerL item.data)) :=
  ⟨C7_amended_autocomplete.1 "" (fun _ => none) (by decide),
   C7_amended_autocomplete.2.1 "CHI" (fun _ => none) (by decide)⟩

/-- Claim C8: extraction distributes over line concatenation — so the
output order is exactly the order of the surviving bullet lines and
duplicates are kept — and a response with no bullet line yields the empty
sequence rather than an error. -/
theorem C8_order_preserved :
    (∀ a b : String, extractS (a ++ "\n" ++ b) = extractS a ++ extractS b) ∧
    (∀ s : String, (∀ l ∈ splitNl s.data, isBulletLine l = false) → extractS s = []) ∧
    extractS "- Rice\n- Rice" = ["Rice", "Rice"] := by
  refine ⟨?_, ?_, by decide⟩
  · intro a b
    unfold extractS
    rw [show (a ++ "\n" ++ b).data = a.data ++ '\n' :: b.data by
      rw [string_data_append, string_data_append]; simp]
    rw [extractDishes_append_nl, List.map_append]
  · intro s h
    unfold extractS extractDishes
    rw [List.filter_eq_nil_iff.mpr (fun l hl => by simp [h l hl])]
    rfl

/-- Witness for C8: concatenation at a concrete pair of responses, and a
prose-only response with no bullet line. -/
theorem C8_witness :
    extractS ("- A\nprose" ++ "\n" ++ "- A") = extractS "- A\nprose" ++ extractS "- A" ∧
    extractS "hello world" = [] :=
  ⟨C8_order_preserved.1 "- A\nprose" "- A",
   C8_order_preserved.2.1 "hello world" (by decide)⟩

/-- Claim C9, counterexample: extraction is not idempotent on its own
output — from `"- <str<strong>ong>"` the first pass extracts
`"<strong>"` (the tag re-formed after tag removal), and re-bulleting and
re-extracting strips that tag away, yielding a different list. -/
theorem C9_counterexample :
    extractDishes (rebullet (extractDishes "- <str<strong>ong>".data))
      ≠ extractDishes "- <str<strong>ong>".data := by decide

/-- Claim C9 (amended): for every input whose extracted names are stable
under one more cleaning pass behind a bullet prefix — no re-formed
emphasis tags and no strippable leading or trailing characters —
re-bulleting the extractor's output and extracting again yields the same
list of names. -/
theorem C9_amended_idempotent (s : String)
    (h : ∀ n ∈ extractDishes s.data, cleanLine ('-' :: ' ' :: n) = n) :
    extractDishes (rebullet (extractDishes s.data)) = extractDishes s.data :=
  extractDishes_rebullet _ (fun _ hn => extractDishes_no_newline hn) h

/-- Witness for C9 at a concrete two-dish response. -/
theorem C9_witness :
    extractDishes (rebullet (extractDishes "- Rice\n- Tomato Soup".data))
      = extractDishes "- Rice\n- Tomato Soup".data :=
  C9_amended_idempotent "- Rice\n- Tomato Soup" (by decide)

/-- Claim C10: the route strips the query before the emptiness check and
before matching — a whitespace-only query produces the empty result with
no image lookups (the match list is empty), and every query is matched
exactly as its trimmed form. -/
theorem C10_query_trimming :
    (∀ (q : String) (f : String → Option String),
      (∀ c ∈ q.data, isPySpace c = true) →
      search_ingredients q f = [] ∧ autocompleteMatches q = []) ∧
    (∀ (q : String) (f : String → Option String),
      search_ingredients q f = search_ingredients (pyStripWsS q) f) := by
  constructor
  · intro q f h
    have h0 : autocompleteMatches q = [] := autocompleteMatches_nil (pyStripWsS_all_ws h)
    exact ⟨by unfold search_ingredients; rw [h0]; rfl, h0⟩
  · intro q f
    unfold search_ingredients
    rw [autocompleteMatches_strip]

/-- Witness for C10: a whitespace-only query performs no lookups and
returns nothing. -/
theorem C10_witness :
    search_ingredients " \t " (fun _ => none) = [] ∧ autocompleteMatches " \t " = [] :=
  C10_query_trimming.1 " \t " (fun _ => none) (by decide)
